import Mathlib

/-!
Verification of the hybrid retrieval core of the AI-VTUBER-Twitch-Companion
repository (`src/utils/rag_handler.py` and the lexical-only variant
`src/rag_handler.py`), as a shallow embedding.

External libraries (numpy, rank_bm25, faiss, sentence_transformers) are
abstracted: BM25 scores and FAISS search results enter as parameters, and the
outcomes of fallible external operations (model load, embedding, index build)
are explicit outcome values.  `np.argsort` is modelled as a stable ascending
sort on indices (Mathlib's `List.insertionSort` with the `≤`-on-key relation,
which places an element before the first element whose key is `≥` its own,
i.e. first-occurrence-stable).
-/

namespace RAG

/-! ### Text utilities: `load_txt` (src/utils/rag_handler.py lines 29-39) -/

/-- The whitespace characters stripped by Python `str.strip()` (ASCII range). -/
def isPySpace (c : Char) : Bool :=
  c = ' ' || c = '\t' || c = '\n' || c = '\r' || c = '\x0b' || c = '\x0c'

/-- Python `str.strip()`: drop leading and trailing whitespace. -/
def pyStrip (l : List Char) : List Char :=
  ((l.dropWhile isPySpace).reverse.dropWhile isPySpace).reverse

/-- Worker for Python `text.split('\n\n')`: scan left to right, cut at each
non-overlapping occurrence of two consecutive newlines.  `acc` holds the
current block, reversed. -/
def splitNNAux : List Char → List Char → List (List Char)
  | acc, [] => [acc.reverse]
  | acc, [c] => [(c :: acc).reverse]
  | acc, c :: c2 :: rest =>
    if c = '\n' ∧ c2 = '\n' then acc.reverse :: splitNNAux [] rest
    else splitNNAux (c :: acc) (c2 :: rest)

/-- Python `text.split('\n\n')`. -/
def splitNN (l : List Char) : List (List Char) := splitNNAux [] l

/-- Whether the text contains two consecutive newlines. -/
def hasNN : List Char → Bool
  | [] => false
  | [_] => false
  | c :: c2 :: rest => (c = '\n' && c2 = '\n') || hasNN (c2 :: rest)

/-- `load_txt`, applied to the file content:
`[p.strip() for p in text.split('\n\n') if p.strip()]`. -/
def load_txt (content : List Char) : List (List Char) :=
  ((splitNN content).map pyStrip).filter (fun p => p ≠ [])

/-! ### Retriever data model (`RAGHandler.__init__`) -/

/-- `preprocess_text`: `text.lower().strip()` (Lean's `Char.toLower`, like
Python's, maps A-Z to a-z; the non-ASCII cases never affect the claims). -/
def preprocess_text (t : String) : String :=
  String.mk (pyStrip (t.data.map Char.toLower))

/-- Worker for Python `text.split(" ")`: cut at every single space, keeping
empty pieces. -/
def splitSpaceAux : List Char → List Char → List (List Char)
  | acc, [] => [acc.reverse]
  | acc, c :: rest =>
    if c = ' ' then acc.reverse :: splitSpaceAux [] rest
    else splitSpaceAux (c :: acc) rest

/-- `tokenize`: `text.split(" ")`. -/
def tokenize (t : String) : List String :=
  (splitSpaceAux [] t.data).map String.mk

/-- The fields of a `RAGHandler` (src/utils/rag_handler.py lines 77-85).
The opaque external objects are abstracted: the BM25 object by the tokenized
corpus it was built from, the FAISS index and the embedding matrix by the
number of vectors they hold, the sentence-transformer model by a flag. -/
structure RAGState where
  documents : List String
  corpus : List String
  bm25 : Option (List (List String))
  faissIndex : Option Nat
  embeddings : Option Nat
  modelLoaded : Bool
  is_initialized : Bool
  deriving Repr, DecidableEq

/-- The state built by `RAGHandler.__init__`. -/
def initRAGState : RAGState :=
  { documents := [], corpus := [], bm25 := none, faissIndex := none,
    embeddings := none, modelLoaded := false, is_initialized := false }

/-- Outcome of the external calls made by `update_index`:
`BM25Okapi(...)` may raise (`bmError`); `create_embeddings` calls
`load_embedding_model` outside its own try block, which re-raises on failure
(`loadError`); `model.encode` failing inside the try makes
`create_embeddings` return `None` (`encodeError`); `build_faiss_index`
returning `None` on an internal exception is `faissBuildError`. -/
inductive IndexOutcome
  | bmError
  | loadError
  | encodeError
  | faissBuildError
  | success
  deriving Repr, DecidableEq

/-- `update_index` (src/utils/rag_handler.py lines 133-157).  Mirrors the
assignment order of the Python body: `self.corpus` and `self.bm25` are
assigned before the embedding step, so they keep their new values even when a
later step raises and the surrounding `except` sets `is_initialized = False`.
On `loadError` the exception from `load_embedding_model` propagates out of
`create_embeddings` (the call sits outside its `try`), so `self.embeddings`
is not assigned and the handler sets `is_initialized = False`. -/
def update_index (s : RAGState) (o : IndexOutcome) : RAGState :=
  if s.documents.isEmpty then { s with is_initialized := false }
  else
    let corpus := s.documents.map preprocess_text
    let tok := corpus.map tokenize
    match o with
    | IndexOutcome.bmError =>
        { s with corpus := corpus, is_initialized := false }
    | IndexOutcome.loadError =>
        { s with corpus := corpus, bm25 := some tok, is_initialized := false }
    | IndexOutcome.encodeError =>
        { s with corpus := corpus, bm25 := some tok, modelLoaded := true,
                 embeddings := none, is_initialized := true }
    | IndexOutcome.faissBuildError =>
        { s with corpus := corpus, bm25 := some tok, modelLoaded := true,
                 embeddings := some s.documents.length, faissIndex := none,
                 is_initialized := true }
    | IndexOutcome.success =>
        { s with corpus := corpus, bm25 := some tok, modelLoaded := true,
                 embeddings := some s.documents.length,
                 faissIndex := some s.documents.length,
                 is_initialized := true }

/-- `add_documents` (src/utils/rag_handler.py lines 171-181): return
unchanged on an empty argument, otherwise extend `self.documents` and rebuild
via `update_index`. -/
def add_documents (s : RAGState) (new_documents : List String)
    (o : IndexOutcome) : RAGState :=
  if new_documents.isEmpty then s
  else update_index { s with documents := s.documents ++ new_documents } o

/-! ### argsort and BM25 top selection -/

/-- The BM25 score of corpus position `i` (out-of-range positions never occur
for indices produced by `argsort` over `range scores.length`). -/
def keyOf (scores : List ℚ) (i : Nat) : ℚ := scores.getD i 0

/-- Comparison of corpus positions by score, the relation under which
`np.argsort` sorts ascending. -/
def scoreLE (scores : List ℚ) (i j : Nat) : Prop :=
  keyOf scores i ≤ keyOf scores j

instance scoreLE.decRel (scores : List ℚ) : DecidableRel (scoreLE scores) :=
  fun i j => inferInstanceAs (Decidable (keyOf scores i ≤ keyOf scores j))

instance scoreLE.total (scores : List ℚ) : IsTotal Nat (scoreLE scores) :=
  ⟨fun i j => le_total (keyOf scores i) (keyOf scores j)⟩

instance scoreLE.trans (scores : List ℚ) : IsTrans Nat (scoreLE scores) :=
  ⟨fun _ _ _ h h2 => le_trans h h2⟩

/-- `np.argsort(bm25_scores)`: the positions `0, …, N-1` sorted ascending by
score, modelled as a stable sort (equal scores keep ascending position
order). -/
def argsortAsc (scores : List ℚ) : List Nat :=
  List.insertionSort (scoreLE scores) (List.range scores.length)

/-- `bm25_top_indices = np.argsort(bm25_scores)[::-1][:top_n * 2]`
(src/utils/rag_handler.py line 200). -/
def bm25TopIndices (scores : List ℚ) (top_n : Nat) : List Nat :=
  (argsortAsc scores).reverse.take (top_n * 2)

/-! ### RRF fusion (src/utils/rag_handler.py lines 202-234) -/

/-- `1 / (rank + 60)`, the RRF contribution of rank `rank` (0-based). -/
def rrfScore (rank : Nat) : ℚ := 1 / ((rank : ℚ) + 60)

/-- One iteration of the fusion loops: `results[doc_id] += rrf_score` if the
key is present, `results[doc_id] = rrf_score` otherwise.  The Python dict is
modelled as an association list in key-insertion order (updating an existing
key keeps its position, a new key is appended), matching dict iteration
order. -/
def rrfAdd (results : List (Int × ℚ)) (doc : Int) (rank : Nat) :
    List (Int × ℚ) :=
  if results.any (fun p => p.1 = doc) then
    results.map (fun p => if p.1 = doc then (p.1, p.2 + rrfScore rank) else p)
  else results ++ [(doc, rrfScore rank)]

/-- `for rank, idx in enumerate(bm25_top_indices): …` — fuse a ranked list of
positions into the accumulator, ranks counted from `rank`. -/
def fuseRanked (rank : Nat) (results : List (Int × ℚ)) :
    List Int → List (Int × ℚ)
  | [] => results
  | d :: ds => fuseRanked (rank + 1) (rrfAdd results d rank) ds

/-- `for rank, idx in enumerate(indices[0]): if idx != -1: …` — fuse the FAISS
result list, skipping the sentinel `-1` but still counting its rank. -/
def fuseFAISS (rank : Nat) (results : List (Int × ℚ)) :
    List Int → List (Int × ℚ)
  | [] => results
  | d :: ds =>
      fuseFAISS (rank + 1) (if d ≠ -1 then rrfAdd results d rank else results) ds

/-- Descending comparison on fused scores, the relation under which
`sorted(results.items(), key=lambda x: x[1], reverse=True)` orders the pairs.
Python's sort is stable also with `reverse=True`, which the stable insertion
sort under this relation reproduces. -/
def fusedGE (x y : Int × ℚ) : Prop := y.2 ≤ x.2

instance fusedGE.decRel : DecidableRel fusedGE :=
  fun x y => inferInstanceAs (Decidable (y.2 ≤ x.2))

instance fusedGE.total : IsTotal (Int × ℚ) fusedGE :=
  ⟨fun x y => le_total y.2 x.2⟩

instance fusedGE.trans : IsTrans (Int × ℚ) fusedGE :=
  ⟨fun _ _ _ h h2 => le_trans h2 h⟩

/-- `sorted_results = sorted(results.items(), key=lambda x: x[1],
reverse=True)`. -/
def sortDesc (l : List (Int × ℚ)) : List (Int × ℚ) :=
  List.insertionSort fusedGE l

/-- Steps 3 of `get_relevant_documents` (lines 232-237): sort the fused pairs
by score descending, take the first `top_n` keys, keep those below the corpus
length, and map them to document texts. -/
def finalize (docs : List String) (results : List (Int × ℚ)) (top_n : Nat) :
    List String :=
  let top := ((sortDesc results).take top_n).map Prod.fst
  (top.filter (fun i => i < (docs.length : Int))).map
    (fun i => docs.getD i.toNat "")

/-- Outcome of the external calls inside the `try` of
`get_relevant_documents`: on `loadError` the query-embedding call re-raises a
model-load failure; on `searchError` `faiss_index.search` raises; on
`encodeFail` `create_embeddings([query])` returns `None` and the semantic
branch is skipped; `ok idxs` is a successful search returning `indices[0]`. -/
inductive QueryOutcome
  | loadError
  | searchError
  | encodeFail
  | ok (idxs : List Int)
  deriving Repr, DecidableEq

/-- The body of the `try` block of `get_relevant_documents`
(src/utils/rag_handler.py lines 192-242); `Except.error` marks the points
where the Python body raises (caught by the `except` clause).  Accessing
`self.bm25.get_scores` with `bm25 = None` raises `AttributeError`.  The BM25
scores returned by `get_scores` for the query are the `scores` parameter. -/
def getRelevantDocsBody (s : RAGState) (scores : List ℚ) (qo : QueryOutcome)
    (top_n : Nat) : Except Unit (List String) :=
  match s.bm25 with
  | none => Except.error ()
  | some _ =>
    let results := fuseRanked 0 []
      ((bm25TopIndices scores top_n).map Int.ofNat)
    match s.faissIndex with
    | none => Except.ok (finalize s.documents results top_n)
    | some _ =>
      match qo with
      | QueryOutcome.loadError => Except.error ()
      | QueryOutcome.searchError => Except.error ()
      | QueryOutcome.encodeFail => Except.ok (finalize s.documents results top_n)
      | QueryOutcome.ok idxs =>
          Except.ok (finalize s.documents (fuseFAISS 0 results idxs) top_n)

/-- `get_relevant_documents` (src/utils/rag_handler.py lines 183-246): early
`[]` when not initialized, otherwise the `try` body with every exception
caught and turned into `[]`. -/
def get_relevant_documents (s : RAGState) (scores : List ℚ)
    (qo : QueryOutcome) (top_n : Nat) : List String :=
  if s.is_initialized then
    match getRelevantDocsBody s scores qo top_n with
    | Except.ok l => l
    | Except.error _ => []
  else []

/-- Modelled from the spec: the plain lexical top-`top_n` result of the
lexical-only variant (src/rag_handler.py line 131 delegates to the external
`rank_bm25.BM25Okapi.get_top_n`, whose code is not part of this repository) —
"fused results equal plain lexical top-`top_n`": the documents at the
`top_n` highest-scoring positions, score descending. -/
def lexicalTopN (docs : List String) (scores : List ℚ) (top_n : Nat) :
    List String :=
  ((argsortAsc scores).reverse.take top_n).map (fun i => docs.getD i "")

/-! ### The fused score dictionary -/

/-- The keys of the results dict, in insertion order. -/
def keysOf (r : List (Int × ℚ)) : List Int := r.map Prod.fst

/-- The accumulated fused score of position `d` (0 when absent). -/
def scoreOf (r : List (Int × ℚ)) (d : Int) : ℚ :=
  ((r.filter (fun p => p.1 = d)).map Prod.snd).sum

/-- The entries produced by fusing a ranked list of fresh keys: position
`rank` of the list contributes `rrfScore rank`. -/
def rrfList (rank : Nat) : List Int → List (Int × ℚ)
  | [] => []
  | d :: ds => (d, rrfScore rank) :: rrfList (rank + 1) ds

/-! ### Lemmas on stripping and splitting -/

theorem dropWhile_head_false {p : Char → Bool} :
    ∀ {l : List Char} {c : Char} {cs : List Char},
      l.dropWhile p = c :: cs → p c = false := by
  intro l
  induction l with
  | nil => intro c cs h; simp at h
  | cons a l ih =>
    intro c cs h
    by_cases ha : p a
    · rw [List.dropWhile_cons_of_pos ha] at h
      exact ih h
    · rw [List.dropWhile_cons_of_neg ha] at h
      cases h
      simpa using ha

theorem dropWhile_dropWhile {p : Char → Bool} (l : List Char) :
    (l.dropWhile p).dropWhile p = l.dropWhile p := by
  cases h : l.dropWhile p with
  | nil => simp
  | cons c cs =>
    have hc := dropWhile_head_false h
    have hnc : ¬ (p c = true) := by simp [hc]
    rw [List.dropWhile_cons_of_neg hnc]

theorem dropWhile_suffix {p : Char → Bool} (l : List Char) :
    l.dropWhile p <:+ l := by
  induction l with
  | nil => simp
  | cons a l ih =>
    by_cases ha : p a
    · rw [List.dropWhile_cons_of_pos ha]
      exact ih.trans (List.suffix_cons a l)
    · rw [List.dropWhile_cons_of_neg ha]

theorem dropWhile_eq_nil_all {p : Char → Bool} :
    ∀ {l : List Char}, l.dropWhile p = [] → ∀ c ∈ l, p c = true := by
  intro l
  induction l with
  | nil => simp
  | cons a l ih =>
    intro h c hc
    by_cases ha : p a
    · rw [List.dropWhile_cons_of_pos ha] at h
      rcases List.mem_cons.mp hc with hc | hc
      · exact hc ▸ ha
      · exact ih h c hc
    · rw [List.dropWhile_cons_of_neg ha] at h
      simp at h

theorem dropWhile_all_eq_nil {p : Char → Bool} :
    ∀ {l : List Char}, (∀ c ∈ l, p c = true) → l.dropWhile p = [] := by
  intro l
  induction l with
  | nil => simp
  | cons a l ih =>
    intro h
    rw [List.dropWhile_cons_of_pos (h a (by simp))]
    exact ih fun c hc => h c (by simp [hc])

theorem pyStrip_eq_nil_iff {l : List Char} :
    pyStrip l = [] ↔ ∀ c ∈ l, isPySpace c = true := by
  constructor
  · intro h c hc
    have h2 : (l.dropWhile isPySpace).reverse.dropWhile isPySpace = [] := by
      have := congrArg List.reverse h
      simpa [pyStrip] using this
    have hdrop : ∀ c ∈ l.dropWhile isPySpace, isPySpace c = true := by
      intro c hc
      exact dropWhile_eq_nil_all h2 c (by simpa using hc)
    have hsplit : c ∈ l.takeWhile isPySpace ++ l.dropWhile isPySpace := by
      rw [List.takeWhile_append_dropWhile]
      exact hc
    rcases List.mem_append.mp hsplit with hc2 | hc2
    · exact List.mem_takeWhile_imp hc2
    · exact hdrop c hc2
  · intro h
    have : l.dropWhile isPySpace = [] := dropWhile_all_eq_nil h
    simp [pyStrip, this]

theorem pyStrip_idem (l : List Char) : pyStrip (pyStrip l) = pyStrip l := by
  have hr : pyStrip l =
      ((l.dropWhile isPySpace).reverse.dropWhile isPySpace).reverse := rfl
  set m := l.dropWhile isPySpace with hm
  set r := (m.reverse.dropWhile isPySpace).reverse with hrdef
  have hpref : r <+: m := by
    have hsuf : r.reverse <:+ m.reverse := by
      rw [hrdef, List.reverse_reverse]
      exact dropWhile_suffix _
    exact List.reverse_suffix.mp hsuf
  have hdrop_r : r.dropWhile isPySpace = r := by
    cases hc : r with
    | nil => simp
    | cons c cs =>
      rcases hpref with ⟨t, ht⟩
      rw [hc] at ht
      have hmc : l.dropWhile isPySpace = c :: (cs ++ t) := by
        rw [← hm, ← ht]
        simp
      have hcfalse : isPySpace c = false := dropWhile_head_false hmc
      rw [List.dropWhile_cons_of_neg (by simp [hcfalse])]
  rw [hr]
  show pyStrip r = r
  unfold pyStrip
  rw [hdrop_r, hrdef, List.reverse_reverse, dropWhile_dropWhile]

theorem splitNNAux_no_nn :
    ∀ (acc rest : List Char), hasNN rest = false →
      splitNNAux acc rest = [acc.reverse ++ rest] := by
  intro acc rest
  induction acc, rest using splitNNAux.induct with
  | case1 acc => simp [splitNNAux]
  | case2 acc c => simp [splitNNAux]
  | case3 acc c c2 rest h ih =>
    intro hno
    rw [hasNN] at hno
    rcases h with ⟨h1, h2⟩
    simp [h1, h2] at hno
  | case4 acc c c2 rest h ih =>
    intro hno
    rw [hasNN] at hno
    have hno2 : hasNN (c2 :: rest) = false := by
      rcases Bool.or_eq_false_iff.mp hno with ⟨_, h2⟩
      exact h2
    rw [splitNNAux, if_neg h, ih hno2]
    simp

theorem splitNNAux_chars :
    ∀ (acc rest : List Char), ∀ p ∈ splitNNAux acc rest, ∀ c ∈ p,
      c ∈ acc ∨ c ∈ rest := by
  intro acc rest
  induction acc, rest using splitNNAux.induct with
  | case1 acc =>
    intro p hp c hc
    simp only [splitNNAux, List.mem_singleton] at hp
    subst hp
    exact Or.inl (by simpa using hc)
  | case2 acc c0 =>
    intro p hp c hc
    simp only [splitNNAux, List.mem_singleton] at hp
    subst hp
    have hmem : c ∈ acc ∨ c = c0 := by simpa using hc
    rcases hmem with hc2 | hc2
    · exact Or.inl hc2
    · exact Or.inr (by simp [hc2])
  | case3 acc c0 c2 rest h ih =>
    intro p hp c hc
    rw [splitNNAux, if_pos h] at hp
    rcases List.mem_cons.mp hp with hp | hp
    · subst hp
      exact Or.inl (by simpa using hc)
    · rcases ih p hp c hc with hc2 | hc2
      · simp at hc2
      · exact Or.inr (by simp [hc2])
  | case4 acc c0 c2 rest h ih =>
    intro p hp c hc
    rw [splitNNAux, if_neg h] at hp
    rcases ih p hp c hc with hc2 | hc2
    · rcases List.mem_cons.mp hc2 with hc3 | hc3
      · exact Or.inr (by simp [hc3])
      · exact Or.inl hc3
    · rcases List.mem_cons.mp hc2 with hc3 | hc3
      · exact Or.inr (by simp [hc3])
      · exact Or.inr (by simp [hc3])

/-- C8: `load_txt` splits the file content on double-newline boundaries and
returns, in source order, each block trimmed of surrounding whitespace,
keeping only non-empty blocks; a file with no double newline yields the
single whole trimmed file (when non-empty after trimming), and a file that is
empty after trimming yields zero segments. -/
theorem load_txt_spec (content : List Char) :
    load_txt content =
      ((splitNN content).map pyStrip).filter (fun p => p ≠ []) ∧
    (hasNN content = false →
      load_txt content =
        if pyStrip content = [] then [] else [pyStrip content]) ∧
    (pyStrip content = [] → load_txt content = []) ∧
    (∀ p ∈ load_txt content, pyStrip p = p ∧ p ≠ []) := by
  refine ⟨rfl, ?_, ?_, ?_⟩
  · intro h
    rw [load_txt, splitNN, splitNNAux_no_nn [] content h]
    by_cases hs : pyStrip content = [] <;> simp [hs]
  · intro h
    have hall := pyStrip_eq_nil_iff.mp h
    rw [load_txt, List.filter_eq_nil_iff]
    intro p hp
    simp only [List.mem_map] at hp
    rcases hp with ⟨q, hq, rfl⟩
    have hq0 : pyStrip q = [] := by
      refine pyStrip_eq_nil_iff.mpr (fun c hc => hall c ?_)
      rcases splitNNAux_chars [] content q hq c hc with h2 | h2
      · simp at h2
      · exact h2
    simp [hq0]
  · intro p hp
    rw [load_txt, List.mem_filter] at hp
    rcases hp with ⟨hp, hne⟩
    simp only [List.mem_map] at hp
    rcases hp with ⟨q, _, rfl⟩
    exact ⟨pyStrip_idem q, by simpa using hne⟩

theorem load_txt_spec_witness :
    (hasNN [' ', 'a', 'b', ' '] = false ∧
      load_txt [' ', 'a', 'b', ' '] =
        (if pyStrip [' ', 'a', 'b', ' '] = [] then []
         else [pyStrip [' ', 'a', 'b', ' ']])) ∧
    (pyStrip ['\t', '\n'] = [] ∧ load_txt ['\t', '\n'] = []) ∧
    (pyStrip ['a', 'b'] = ['a', 'b'] ∧ ['a', 'b'] ≠ ([] : List Char)) :=
  ⟨⟨by decide, (load_txt_spec _).2.1 (by decide)⟩,
   ⟨by decide, (load_txt_spec _).2.2.1 (by decide)⟩,
   (load_txt_spec ['a', 'b']).2.2.2 ['a', 'b'] (by decide)⟩

/-! ### Stability of the argsort stage -/

theorem insertionSort_filter_key (scores : List ℚ) (q : ℚ) (l : List Nat) :
    (List.insertionSort (scoreLE scores) l).filter
        (fun i => keyOf scores i = q) =
      l.filter (fun i => keyOf scores i = q) := by
  have hpair : (l.filter (fun i => keyOf scores i = q)).Pairwise
      (scoreLE scores) := by
    refine List.pairwise_of_forall_mem_list ?_
    intro a ha b hb
    have ha2 : keyOf scores a = q := by simpa using (List.mem_filter.mp ha).2
    have hb2 : keyOf scores b = q := by simpa using (List.mem_filter.mp hb).2
    rw [scoreLE, ha2, hb2]
  have hsub : List.Sublist (l.filter (fun i => keyOf scores i = q))
      (List.insertionSort (scoreLE scores) l) :=
    List.sublist_insertionSort hpair (List.filter_sublist l)
  have hsub2 : List.Sublist (l.filter (fun i => keyOf scores i = q))
      ((List.insertionSort (scoreLE scores) l).filter
        (fun i => keyOf scores i = q)) := by
    have h2 := hsub.filter (fun i => decide (keyOf scores i = q))
    simpa [List.filter_filter] using h2
  have hperm : List.Perm
      ((List.insertionSort (scoreLE scores) l).filter
        (fun i => keyOf scores i = q))
      (l.filter (fun i => keyOf scores i = q)) :=
    (List.perm_insertionSort _ l).filter _
  exact (hsub2.eq_of_length hperm.length_eq.symm).symm

/-- C1 (amended): the lexical stage is `argsort ascending, reverse, take
2·top_n`: it selects the top `2·top_n` positions by score descending, but on
equal scores the position with the HIGHER corpus index comes first — the
ascending argsort is stable (first-occurrence order on ties), and the
subsequent reversal inverts the tie order. -/
theorem bm25_top_selection (scores : List ℚ) (top_n : Nat) (q : ℚ) :
    bm25TopIndices scores top_n =
      ((argsortAsc scores).reverse).take (top_n * 2) ∧
    ((argsortAsc scores).reverse).Perm (List.range scores.length) ∧
    ((argsortAsc scores).reverse).Sorted
      (fun i j => keyOf scores j ≤ keyOf scores i) ∧
    ((argsortAsc scores).reverse).filter (fun i => keyOf scores i = q) =
      ((List.range scores.length).filter
        (fun i => keyOf scores i = q)).reverse := by
  refine ⟨rfl, ?_, ?_, ?_⟩
  · exact (List.reverse_perm _).trans (List.perm_insertionSort _ _)
  · have hs : (argsortAsc scores).Sorted (scoreLE scores) :=
      List.sorted_insertionSort _ _
    rw [List.Sorted, List.pairwise_reverse]
    exact hs
  · rw [List.filter_reverse, argsortAsc, insertionSort_filter_key]

/-- C1 counterexample: with scores `[1, 1]` both corpus positions have equal
BM25 score and both are selected, but the code ranks position 1 before
position 0 — not lower-index-first as the claim states. -/
theorem bm25_ties_counterexample :
    bm25TopIndices [(1 : ℚ), 1] 1 = [1, 0] ∧
    ¬ (bm25TopIndices [(1 : ℚ), 1] 1).findIdx (fun i => i = 0) <
      (bm25TopIndices [(1 : ℚ), 1] 1).findIdx (fun i => i = 1) := by
  decide

theorem keysOf_nil : keysOf [] = [] := rfl

theorem keysOf_cons (a : Int × ℚ) (r : List (Int × ℚ)) :
    keysOf (a :: r) = a.1 :: keysOf r := rfl

theorem keysOf_length (r : List (Int × ℚ)) : (keysOf r).length = r.length :=
  List.length_map r Prod.fst

theorem scoreOf_nil (x : Int) : scoreOf [] x = 0 := rfl

theorem scoreOf_cons (a : Int × ℚ) (r : List (Int × ℚ)) (x : Int) :
    scoreOf (a :: r) x = (if a.1 = x then a.2 else 0) + scoreOf r x := by
  rw [scoreOf, List.filter_cons]
  by_cases h : a.1 = x <;> simp [h, scoreOf]

theorem scoreOf_append (r s : List (Int × ℚ)) (x : Int) :
    scoreOf (r ++ s) x = scoreOf r x + scoreOf s x := by
  simp [scoreOf, List.filter_append]

theorem scoreOf_eq_zero_of_not_mem {r : List (Int × ℚ)} {x : Int}
    (h : x ∉ keysOf r) : scoreOf r x = 0 := by
  induction r with
  | nil => rfl
  | cons a r ih =>
    rw [keysOf_cons] at h
    rw [scoreOf_cons]
    have hax : a.1 ≠ x := fun he => h (he ▸ List.mem_cons_self _ _)
    have hx : x ∉ keysOf r := fun hm => h (List.mem_cons_of_mem _ hm)
    rw [if_neg hax, ih hx, zero_add]

theorem rrfAdd_of_not_mem {r : List (Int × ℚ)} {d : Int} (k : Nat)
    (h : d ∉ keysOf r) : rrfAdd r d k = r ++ [(d, rrfScore k)] := by
  rw [rrfAdd, if_neg]
  intro hany
  rcases List.any_eq_true.mp hany with ⟨p, hp, hpd⟩
  have hpd2 : p.1 = d := by simpa using hpd
  have : p.1 ∈ keysOf r := List.mem_map_of_mem Prod.fst hp
  rw [hpd2] at this
  exact h this

theorem rrfAdd_of_mem {r : List (Int × ℚ)} {d : Int} (k : Nat)
    (h : d ∈ keysOf r) :
    rrfAdd r d k =
      r.map (fun p => if p.1 = d then (p.1, p.2 + rrfScore k) else p) := by
  rw [rrfAdd, if_pos]
  rcases List.mem_map.mp h with ⟨p, hp, hpd⟩
  exact List.any_eq_true.mpr ⟨p, hp, by simpa using hpd⟩

theorem keysOf_rrfAdd_of_mem {r : List (Int × ℚ)} {d : Int} (k : Nat)
    (h : d ∈ keysOf r) : keysOf (rrfAdd r d k) = keysOf r := by
  rw [rrfAdd_of_mem k h, keysOf, List.map_map, keysOf]
  refine List.map_congr_left ?_
  intro p _
  by_cases hp : p.1 = d <;> simp [hp]

theorem keysOf_rrfAdd_of_not_mem {r : List (Int × ℚ)} {d : Int} (k : Nat)
    (h : d ∉ keysOf r) : keysOf (rrfAdd r d k) = keysOf r ++ [d] := by
  rw [rrfAdd_of_not_mem k h, keysOf, List.map_append, keysOf]
  rfl

theorem keysOf_rrfAdd_nodup {r : List (Int × ℚ)} {d : Int} (k : Nat)
    (h : (keysOf r).Nodup) : (keysOf (rrfAdd r d k)).Nodup := by
  by_cases hmem : d ∈ keysOf r
  · rw [keysOf_rrfAdd_of_mem k hmem]; exact h
  · rw [keysOf_rrfAdd_of_not_mem k hmem]
    simp [List.nodup_append, h, hmem]

theorem length_rrfAdd_ge (r : List (Int × ℚ)) (d : Int) (k : Nat) :
    r.length ≤ (rrfAdd r d k).length := by
  rw [rrfAdd]
  by_cases h : r.any (fun p => p.1 = d) <;> simp [h]

theorem map_rrf_untouched {r : List (Int × ℚ)} {d : Int} (c : ℚ)
    (h : d ∉ keysOf r) :
    r.map (fun p => if p.1 = d then (p.1, p.2 + c) else p) = r := by
  induction r with
  | nil => rfl
  | cons a r ih =>
    rw [keysOf_cons] at h
    have had : a.1 ≠ d := fun he => h (he ▸ List.mem_cons_self _ _)
    have hd : d ∉ keysOf r := fun hm => h (List.mem_cons_of_mem _ hm)
    simp only [List.map_cons, if_neg had, ih hd]

theorem scoreOf_rrfAdd {r : List (Int × ℚ)} (hnd : (keysOf r).Nodup)
    (d : Int) (k : Nat) (x : Int) :
    scoreOf (rrfAdd r d k) x =
      scoreOf r x + (if x = d then rrfScore k else 0) := by
  induction r with
  | nil =>
    rw [rrfAdd_of_not_mem k (by simp [keysOf]), List.nil_append,
      scoreOf_cons, scoreOf_nil]
    by_cases hx : x = d
    · simp [hx]
    · simp [hx, Ne.symm hx]
  | cons a r ih =>
    rw [keysOf_cons] at hnd
    have ha : a.1 ∉ keysOf r := (List.nodup_cons.mp hnd).1
    have hnd2 : (keysOf r).Nodup := (List.nodup_cons.mp hnd).2
    by_cases hmem : d ∈ keysOf (a :: r)
    · rw [rrfAdd_of_mem k hmem, List.map_cons]
      rw [keysOf_cons] at hmem
      rcases List.mem_cons.mp hmem with hda | hdr
      · have hdr2 : d ∉ keysOf r := hda ▸ ha
        rw [if_pos hda.symm, map_rrf_untouched _ hdr2, scoreOf_cons,
          scoreOf_cons]
        by_cases hx : x = d
        · have hax : a.1 = x := by rw [hx, hda]
          rw [if_pos hax, if_pos hax, if_pos hx]
          ring
        · have hax : a.1 ≠ x := fun he => hx (by rw [← he, hda])
          rw [if_neg hax, if_neg hax, if_neg hx, add_zero]
      · have had : a.1 ≠ d := fun he => ha (he ▸ hdr)
        rw [if_neg had, scoreOf_cons, scoreOf_cons,
          (rrfAdd_of_mem k hdr).symm, ih hnd2]
        ring
    · rw [rrfAdd_of_not_mem k hmem, scoreOf_append]
      congr 1
      rw [scoreOf_cons, scoreOf_nil, add_zero]
      by_cases hx : x = d
      · rw [if_pos hx.symm, if_pos hx]
      · rw [if_neg (fun h => hx h.symm), if_neg hx]

/-! ### Fusing the two ranked lists -/

theorem keysOf_append (r s : List (Int × ℚ)) :
    keysOf (r ++ s) = keysOf r ++ keysOf s :=
  List.map_append Prod.fst r s

theorem keysOf_rrfList (k : Nat) (ds : List Int) :
    keysOf (rrfList k ds) = ds := by
  induction ds generalizing k with
  | nil => rfl
  | cons d ds ih => rw [rrfList, keysOf_cons, ih]

theorem rrfScore_pos (k : Nat) : 0 < rrfScore k := by
  rw [rrfScore]
  positivity

theorem rrfScore_anti {k k2 : Nat} (h : k ≤ k2) : rrfScore k2 ≤ rrfScore k := by
  rw [rrfScore, rrfScore]
  have h60 : (0 : ℚ) < (k : ℚ) + 60 := by positivity
  refine one_div_le_one_div_of_le h60 ?_
  have : (k : ℚ) ≤ (k2 : ℚ) := by exact_mod_cast h
  linarith

theorem rrfList_snd_le {k : Nat} {ds : List Int} :
    ∀ p ∈ rrfList k ds, p.2 ≤ rrfScore k := by
  induction ds generalizing k with
  | nil => intro p hp; simp [rrfList] at hp
  | cons d ds ih =>
    intro p hp
    rcases List.mem_cons.mp hp with hp | hp
    · rw [hp]
    · exact (ih p hp).trans (rrfScore_anti (Nat.le_succ k))

theorem rrfList_sorted (k : Nat) (ds : List Int) :
    (rrfList k ds).Sorted fusedGE := by
  induction ds generalizing k with
  | nil => simp [rrfList, List.Sorted]
  | cons d ds ih =>
    rw [rrfList, List.Sorted, List.pairwise_cons]
    refine ⟨?_, ih (k + 1)⟩
    intro p hp
    exact (rrfList_snd_le p hp).trans (rrfScore_anti (Nat.le_succ k))

theorem fuseRanked_eq_append {ds : List Int} :
    ∀ (k : Nat) (acc : List (Int × ℚ)), ds.Nodup →
      (∀ d ∈ ds, d ∉ keysOf acc) →
      fuseRanked k acc ds = acc ++ rrfList k ds := by
  induction ds with
  | nil => intro k acc _ _; simp [fuseRanked, rrfList]
  | cons d ds ih =>
    intro k acc hnd hdis
    rw [fuseRanked, rrfList,
      rrfAdd_of_not_mem k (hdis d (List.mem_cons_self _ _))]
    rw [ih (k + 1) _ (List.nodup_cons.mp hnd).2 ?_, List.append_assoc]
    · rfl
    · intro e he
      intro hmem
      rw [keysOf_append] at hmem
      rcases List.mem_append.mp hmem with hm | hm
      · exact hdis e (List.mem_cons_of_mem _ he) hm
      · have : e = d := by simpa [keysOf] using hm
        exact (List.nodup_cons.mp hnd).1 (this ▸ he)

theorem scoreOf_fuseRanked {ds : List Int} :
    ∀ (k : Nat) (acc : List (Int × ℚ)), ds.Nodup → (keysOf acc).Nodup →
      ∀ x, scoreOf (fuseRanked k acc ds) x =
        scoreOf acc x +
          (if x ∈ ds then rrfScore (k + ds.findIdx (fun y => y = x))
           else 0) := by
  induction ds with
  | nil => intro k acc _ _ x; simp [fuseRanked]
  | cons d ds ih =>
    intro k acc hnd hka x
    rw [fuseRanked,
      ih (k + 1) _ (List.nodup_cons.mp hnd).2 (keysOf_rrfAdd_nodup k hka),
      scoreOf_rrfAdd hka d k x]
    by_cases hxd : x = d
    · have hnx : d ∉ ds := (List.nodup_cons.mp hnd).1
      subst hxd
      simp [hnx, List.findIdx_cons]
    · have hdx : (d = x) = False := eq_false (fun h => hxd h.symm)
      have harith : k + 1 + List.findIdx (fun y => decide (y = x)) ds =
          k + (List.findIdx (fun y => decide (y = x)) ds + 1) := by omega
      by_cases hmem : x ∈ ds
      · simp [hxd, hmem, List.findIdx_cons, hdx, harith]
      · simp [hxd, hmem, List.findIdx_cons, hdx]

theorem scoreOf_fuseFAISS {ds : List Int} :
    ∀ (k : Nat) (acc : List (Int × ℚ)),
      (ds.filter (fun y => y ≠ -1)).Nodup → (keysOf acc).Nodup →
      ∀ x, x ≠ -1 →
      scoreOf (fuseFAISS k acc ds) x =
        scoreOf acc x +
          (if x ∈ ds then rrfScore (k + ds.findIdx (fun y => y = x))
           else 0) := by
  induction ds with
  | nil => intro k acc _ _ x _; simp [fuseFAISS]
  | cons d ds ih =>
    intro k acc hnd hka x hx1
    by_cases hd1 : d = -1
    · rw [fuseFAISS, if_neg (by simp [hd1]), ih (k + 1) _
        (by simpa [List.filter_cons, hd1] using hnd) hka x hx1]
      have hxd : (x = d) = False := eq_false (fun h => hx1 (h.trans hd1))
      have hdx : (d = x) = False :=
        eq_false (fun h => hx1 (h.symm.trans hd1))
      have harith : k + 1 + List.findIdx (fun y => decide (y = x)) ds =
          k + (List.findIdx (fun y => decide (y = x)) ds + 1) := by omega
      by_cases hmem : x ∈ ds
      · simp [hxd, hmem, List.findIdx_cons, hdx, harith]
      · simp [hxd, hmem, List.findIdx_cons, hdx]
    · have hfil : (ds.filter (fun y => y ≠ -1)).Nodup ∧
          d ∉ ds.filter (fun y => y ≠ -1) := by
        rw [List.filter_cons, if_pos (by simpa using hd1)] at hnd
        exact ⟨(List.nodup_cons.mp hnd).2, (List.nodup_cons.mp hnd).1⟩
      have hdds : d ∉ ds := fun hm =>
        hfil.2 (List.mem_filter.mpr ⟨hm, by simpa using hd1⟩)
      rw [fuseFAISS, if_pos (by simpa using hd1),
        ih (k + 1) _ hfil.1 (keysOf_rrfAdd_nodup k hka) x hx1,
        scoreOf_rrfAdd hka d k x]
      by_cases hxd : x = d
      · subst hxd
        simp [hdds, List.findIdx_cons]
      · have hdx : (d = x) = False := eq_false (fun h => hxd h.symm)
        have harith : k + 1 + List.findIdx (fun y => decide (y = x)) ds =
            k + (List.findIdx (fun y => decide (y = x)) ds + 1) := by omega
        by_cases hmem : x ∈ ds
        · simp [hxd, hmem, List.findIdx_cons, hdx, harith]
        · simp [hxd, hmem, List.findIdx_cons, hdx]

theorem keysOf_fuseFAISS_nodup {ds : List Int} :
    ∀ (k : Nat) (acc : List (Int × ℚ)), (keysOf acc).Nodup →
      (keysOf (fuseFAISS k acc ds)).Nodup := by
  induction ds with
  | nil => intro k acc h; exact h
  | cons d ds ih =>
    intro k acc h
    rw [fuseFAISS]
    by_cases hd : d ≠ -1
    · rw [if_pos hd]
      exact ih (k + 1) _ (keysOf_rrfAdd_nodup k h)
    · rw [if_neg hd]
      exact ih (k + 1) _ h

theorem keysOf_fuseFAISS_subset {ds : List Int} :
    ∀ (k : Nat) (acc : List (Int × ℚ)),
      ∀ x ∈ keysOf (fuseFAISS k acc ds),
        x ∈ keysOf acc ∨ (x ∈ ds ∧ x ≠ -1) := by
  induction ds with
  | nil => intro k acc x hx; exact Or.inl hx
  | cons d ds ih =>
    intro k acc x hx
    rw [fuseFAISS] at hx
    by_cases hd : d ≠ -1
    · rw [if_pos hd] at hx
      rcases ih (k + 1) _ x hx with hm | hm
      · by_cases hmem : d ∈ keysOf acc
        · rw [keysOf_rrfAdd_of_mem k hmem] at hm
          exact Or.inl hm
        · rw [keysOf_rrfAdd_of_not_mem k hmem] at hm
          rcases List.mem_append.mp hm with hm | hm
          · exact Or.inl hm
          · have : x = d := by simpa using hm
            exact Or.inr ⟨by simp [this], this ▸ hd⟩
      · exact Or.inr ⟨List.mem_cons_of_mem _ hm.1, hm.2⟩
    · rw [if_neg hd] at hx
      rcases ih (k + 1) _ x hx with hm | hm
      · exact Or.inl hm
      · exact Or.inr ⟨List.mem_cons_of_mem _ hm.1, hm.2⟩

theorem length_fuseFAISS_ge {ds : List Int} :
    ∀ (k : Nat) (acc : List (Int × ℚ)),
      acc.length ≤ (fuseFAISS k acc ds).length := by
  induction ds with
  | nil => intro k acc; exact le_refl _
  | cons d ds ih =>
    intro k acc
    rw [fuseFAISS]
    by_cases hd : d ≠ -1
    · rw [if_pos hd]
      exact (length_rrfAdd_ge acc d k).trans (ih (k + 1) _)
    · rw [if_neg hd]
      exact ih (k + 1) _

/-! ### Sorting the fused results -/

theorem sortDesc_perm (l : List (Int × ℚ)) : List.Perm (sortDesc l) l :=
  List.perm_insertionSort _ _

theorem sortDesc_sorted (l : List (Int × ℚ)) : (sortDesc l).Sorted fusedGE :=
  List.sorted_insertionSort _ _

theorem sortDesc_eq_of_sorted {l : List (Int × ℚ)} (h : l.Sorted fusedGE) :
    sortDesc l = l :=
  h.insertionSort_eq

/-! ### The output stage of get_relevant_documents -/

theorem getD_mem_of_lt {l : List String} {n : Nat} (h : n < l.length) :
    l.getD n "" ∈ l := by
  rw [List.getD_eq_getElem?_getD, List.getElem?_eq_getElem h]
  exact List.getElem_mem h

theorem finalize_keys_eq {docs : List String} {results : List (Int × ℚ)}
    {top_n : Nat}
    (hkeys : ∀ x ∈ keysOf results, 0 ≤ x ∧ x < (docs.length : Int)) :
    (((sortDesc results).take top_n).map Prod.fst).filter
        (fun i => i < (docs.length : Int)) =
      ((sortDesc results).take top_n).map Prod.fst := by
  rw [List.filter_eq_self]
  intro i hi
  rcases List.mem_map.mp hi with ⟨p, hp, rfl⟩
  have hp2 : p ∈ results :=
    (sortDesc_perm results).mem_iff.mp ((List.take_sublist _ _).subset hp)
  have hk := hkeys p.1 (List.mem_map_of_mem Prod.fst hp2)
  simpa using hk.2

theorem finalize_length {docs : List String} {results : List (Int × ℚ)}
    (top_n : Nat)
    (hkeys : ∀ x ∈ keysOf results, 0 ≤ x ∧ x < (docs.length : Int)) :
    (finalize docs results top_n).length = min top_n results.length := by
  show (List.map (fun i => docs.getD i.toNat "")
      (List.filter (fun i => i < (docs.length : Int))
        (List.map Prod.fst (List.take top_n (sortDesc results))))).length
    = min top_n results.length
  rw [finalize_keys_eq hkeys, List.length_map, List.length_map,
    List.length_take, (sortDesc_perm results).length_eq]

theorem finalize_mem {docs : List String} {results : List (Int × ℚ)}
    {top_n : Nat}
    (hkeys : ∀ x ∈ keysOf results, 0 ≤ x ∧ x < (docs.length : Int)) :
    ∀ d ∈ finalize docs results top_n, d ∈ docs := by
  intro d hd
  have hd2 : d ∈ List.map (fun i => docs.getD i.toNat "")
      (List.filter (fun i => i < (docs.length : Int))
        (List.map Prod.fst (List.take top_n (sortDesc results)))) := hd
  rcases List.mem_map.mp hd2 with ⟨i, hi, rfl⟩
  have hi2 : i ∈ ((sortDesc results).take top_n).map Prod.fst :=
    (List.filter_sublist _).subset hi
  rcases List.mem_map.mp hi2 with ⟨p, hp, rfl⟩
  have hp2 : p ∈ results :=
    (sortDesc_perm results).mem_iff.mp ((List.take_sublist _ _).subset hp)
  have hk := hkeys p.1 (List.mem_map_of_mem Prod.fst hp2)
  have hlt : p.1.toNat < docs.length := by omega
  exact getD_mem_of_lt hlt

/-! ### Facts about the selected BM25 index list -/

theorem argsortAsc_nodup (scores : List ℚ) : (argsortAsc scores).Nodup :=
  ((List.perm_insertionSort (scoreLE scores) _).nodup_iff).mpr
    (List.nodup_range _)

theorem bm25TopIndices_nodup (scores : List ℚ) (top_n : Nat) :
    (bm25TopIndices scores top_n).Nodup :=
  (List.take_sublist _ _).nodup
    (List.nodup_reverse.mpr (argsortAsc_nodup scores))

theorem bm25TopIndices_lt (scores : List ℚ) (top_n : Nat) :
    ∀ i ∈ bm25TopIndices scores top_n, i < scores.length := by
  intro i hi
  have h1 : i ∈ argsortAsc scores := by
    have h2 := (List.take_sublist _ _).subset hi
    simpa using h2
  have h3 := (List.perm_insertionSort (scoreLE scores) _).mem_iff.mp h1
  simpa using h3

theorem bm25TopIndices_length (scores : List ℚ) (top_n : Nat) :
    (bm25TopIndices scores top_n).length =
      min (top_n * 2) scores.length := by
  rw [bm25TopIndices, List.length_take, List.length_reverse, argsortAsc,
    List.length_insertionSort, List.length_range]

/-- C3: when the FAISS index is absent and the retriever is initialized,
`get_relevant_documents` returns exactly the plain lexical BM25 top-`top_n`
list in BM25 order, whatever the semantic-branch outcome: RRF over the single
lexical list preserves its order within the truncated window. -/
theorem hybrid_without_faiss_eq_lexical (s : RAGState) (scores : List ℚ)
    (qo : QueryOutcome) (top_n : Nat) (tok : List (List String))
    (hinit : s.is_initialized = true) (hbm : s.bm25 = some tok)
    (hfaiss : s.faissIndex = none)
    (hlen : scores.length = s.documents.length) :
    get_relevant_documents s scores qo top_n =
      lexicalTopN s.documents scores top_n := by
  have hbody : get_relevant_documents s scores qo top_n =
      finalize s.documents
        (fuseRanked 0 [] ((bm25TopIndices scores top_n).map Int.ofNat))
        top_n := by
    rw [get_relevant_documents, if_pos (by rw [hinit]),
      getRelevantDocsBody, hbm, hfaiss]
  rw [hbody]
  set L1 : List Int := (bm25TopIndices scores top_n).map Int.ofNat with hL1
  have hnd : L1.Nodup :=
    (bm25TopIndices_nodup scores top_n).map
      (fun a b h => Int.ofNat.inj h)
  have hfuse : fuseRanked 0 [] L1 = rrfList 0 L1 :=
    fuseRanked_eq_append 0 [] hnd (fun d _ => by simp [keysOf])
  have hsorted : sortDesc (rrfList 0 L1) = rrfList 0 L1 :=
    sortDesc_eq_of_sorted (rrfList_sorted 0 L1)
  show (List.map (fun i => s.documents.getD i.toNat "")
      (List.filter (fun i => i < (s.documents.length : Int))
        (List.map Prod.fst
          (List.take top_n (sortDesc (fuseRanked 0 [] L1)))))) =
    lexicalTopN s.documents scores top_n
  rw [hfuse, hsorted, List.map_take]
  have h4 : List.map Prod.fst (rrfList 0 L1) = L1 := keysOf_rrfList 0 L1
  rw [h4]
  have hfil : (List.take top_n L1).filter
      (fun i => i < (s.documents.length : Int)) = List.take top_n L1 := by
    rw [List.filter_eq_self]
    intro i hi
    have hi2 : i ∈ L1 := (List.take_sublist _ _).subset hi
    rcases List.mem_map.mp hi2 with ⟨j, hj, rfl⟩
    have := bm25TopIndices_lt scores top_n j hj
    simp only [decide_eq_true_eq, Int.ofNat_eq_coe]
    omega
  rw [hfil, hL1, ← List.map_take]
  have htt : List.take top_n (bm25TopIndices scores top_n) =
      List.take top_n ((argsortAsc scores).reverse) := by
    rw [bm25TopIndices, List.take_take, Nat.min_eq_left (by omega)]
  rw [htt, lexicalTopN, List.map_map]
  refine List.map_congr_left ?_
  intro i _
  simp

theorem hybrid_without_faiss_eq_lexical_witness :
    get_relevant_documents
      { documents := ["a", "b"], corpus := ["a", "b"],
        bm25 := some [["a"], ["b"]], faissIndex := none, embeddings := none,
        modelLoaded := false, is_initialized := true }
      [1, 2] QueryOutcome.encodeFail 1 =
      lexicalTopN ["a", "b"] [1, 2] 1 :=
  hybrid_without_faiss_eq_lexical _ [1, 2] QueryOutcome.encodeFail 1
    [["a"], ["b"]] rfl rfl rfl rfl

/-! ### Length and membership of the hybrid result -/

theorem length_le_of_int_range {keys : List Int} {N : Nat} (hnd : keys.Nodup)
    (hsub : ∀ x ∈ keys, 0 ≤ x ∧ x < (N : Int)) : keys.length ≤ N := by
  have hss : keys ⊆ (List.range N).map Int.ofNat := by
    intro x hx
    rcases hsub x hx with ⟨h0, hN⟩
    exact List.mem_map.mpr
      ⟨x.toNat, List.mem_range.mpr (by omega), Int.toNat_of_nonneg h0⟩
  have := (List.subperm_of_subset hnd hss).length_le
  simpa using this

theorem keysOf_fuseRanked_nil (L1 : List Int) (hnd : L1.Nodup) :
    keysOf (fuseRanked 0 [] L1) = L1 := by
  rw [fuseRanked_eq_append 0 [] hnd (fun d _ => by simp [keysOf]),
    List.nil_append, keysOf_rrfList]

theorem length_fuseRanked_nil (L1 : List Int) (hnd : L1.Nodup) :
    (fuseRanked 0 [] L1).length = L1.length := by
  have h := congrArg List.length (keysOf_fuseRanked_nil L1 hnd)
  rwa [keysOf_length] at h

/-- Shared helper for C4 and C10: whenever the query executes without an
exception and the FAISS search (when consulted) returns in-range indices,
the hybrid result has exactly `min top_n N` entries, all drawn from the
corpus. -/
theorem get_relevant_documents_shape (s : RAGState) (scores : List ℚ)
    (qo : QueryOutcome) (top_n : Nat) (tok : List (List String))
    (hinit : s.is_initialized = true) (hbm : s.bm25 = some tok)
    (hlen : scores.length = s.documents.length)
    (hsem : s.faissIndex = none ∨ qo = QueryOutcome.encodeFail ∨
      ∃ idxs, qo = QueryOutcome.ok idxs ∧
        ∀ x ∈ idxs, x = -1 ∨ (0 ≤ x ∧ x < (s.documents.length : Int))) :
    (get_relevant_documents s scores qo top_n).length =
      min top_n s.documents.length ∧
    ∀ d ∈ get_relevant_documents s scores qo top_n, d ∈ s.documents := by
  set N := s.documents.length with hN
  set L1 : List Int := (bm25TopIndices scores top_n).map Int.ofNat with hL1
  have hndL1 : L1.Nodup :=
    (bm25TopIndices_nodup scores top_n).map (fun a b h => Int.ofNat.inj h)
  have hkeys1 : ∀ x ∈ L1, 0 ≤ x ∧ x < (N : Int) := by
    intro x hx
    rcases List.mem_map.mp hx with ⟨j, hj, rfl⟩
    have := bm25TopIndices_lt scores top_n j hj
    simp only [Int.ofNat_eq_coe]
    omega
  have hkeys0 : ∀ x ∈ keysOf (fuseRanked 0 [] L1), 0 ≤ x ∧ x < (N : Int) := by
    rw [keysOf_fuseRanked_nil L1 hndL1]
    exact hkeys1
  have hnd0 : (keysOf (fuseRanked 0 [] L1)).Nodup := by
    rw [keysOf_fuseRanked_nil L1 hndL1]
    exact hndL1
  have hlen0 : (fuseRanked 0 [] L1).length = min (top_n * 2) N := by
    rw [length_fuseRanked_nil L1 hndL1, hL1, List.length_map,
      bm25TopIndices_length, hlen]
  -- the two possible result shapes
  have hmain : ∀ results : List (Int × ℚ),
      (∀ x ∈ keysOf results, 0 ≤ x ∧ x < (N : Int)) →
      (keysOf results).Nodup →
      min (top_n * 2) N ≤ results.length →
      (finalize s.documents results top_n).length = min top_n N ∧
      ∀ d ∈ finalize s.documents results top_n, d ∈ s.documents := by
    intro results hkeys hnd hge
    have hle : results.length ≤ N := by
      have := length_le_of_int_range hnd hkeys
      rwa [keysOf_length] at this
    refine ⟨?_, finalize_mem hkeys⟩
    rw [finalize_length top_n hkeys]
    omega
  cases hfi : s.faissIndex with
  | none =>
    have hbody : get_relevant_documents s scores qo top_n =
        finalize s.documents (fuseRanked 0 [] L1) top_n := by
      rw [get_relevant_documents, if_pos (by rw [hinit]),
        getRelevantDocsBody, hbm, hfi]
    rw [hbody]
    exact hmain _ hkeys0 hnd0 (le_of_eq hlen0.symm)
  | some m =>
    rcases hsem with hsem | hsem | hsem
    · rw [hfi] at hsem; cases hsem
    · subst hsem
      have hbody : get_relevant_documents s scores QueryOutcome.encodeFail
          top_n = finalize s.documents (fuseRanked 0 [] L1) top_n := by
        rw [get_relevant_documents, if_pos (by rw [hinit]),
          getRelevantDocsBody, hbm, hfi]
      rw [hbody]
      exact hmain _ hkeys0 hnd0 (le_of_eq hlen0.symm)
    · rcases hsem with ⟨idxs, rfl, hvalid⟩
      have hbody : get_relevant_documents s scores (QueryOutcome.ok idxs)
          top_n = finalize s.documents
            (fuseFAISS 0 (fuseRanked 0 [] L1) idxs) top_n := by
        rw [get_relevant_documents, if_pos (by rw [hinit]),
          getRelevantDocsBody, hbm, hfi]
      rw [hbody]
      refine hmain _ ?_ (keysOf_fuseFAISS_nodup 0 _ hnd0) ?_
      · intro x hx
        rcases keysOf_fuseFAISS_subset 0 _ x hx with hm | hm
        · exact hkeys0 x hm
        · rcases hvalid x hm.1 with h1 | h1
          · exact absurd h1 hm.2
          · exact h1
      · calc min (top_n * 2) N = (fuseRanked 0 [] L1).length := hlen0.symm
          _ ≤ _ := length_fuseFAISS_ge 0 _

/-- C4: for every initialized retriever (BM25 index built over the corpus,
one score per segment), every query and every `top_n ≥ 1`,
`get_relevant_documents` returns exactly `min top_n N` segment texts, where
`N` is the corpus size — all segments when `top_n` exceeds `N`, no padding —
provided the query executes without an exception and the FAISS search, when
consulted, returns in-range indices or the `-1` sentinel. -/
theorem get_relevant_documents_length (s : RAGState) (scores : List ℚ)
    (qo : QueryOutcome) (top_n : Nat) (tok : List (List String))
    (hinit : s.is_initialized = true) (hbm : s.bm25 = some tok)
    (hlen : scores.length = s.documents.length) (_htop : 1 ≤ top_n)
    (hsem : s.faissIndex = none ∨ qo = QueryOutcome.encodeFail ∨
      ∃ idxs, qo = QueryOutcome.ok idxs ∧
        ∀ x ∈ idxs, x = -1 ∨ (0 ≤ x ∧ x < (s.documents.length : Int))) :
    (get_relevant_documents s scores qo top_n).length =
      min top_n s.documents.length :=
  (get_relevant_documents_shape s scores qo top_n tok hinit hbm hlen hsem).1

theorem get_relevant_documents_length_witness :
    (get_relevant_documents
      { documents := ["a", "b"], corpus := ["a", "b"],
        bm25 := some [["a"], ["b"]], faissIndex := some 2,
        embeddings := some 2, modelLoaded := true, is_initialized := true }
      [1, 2] (QueryOutcome.ok [1, -1, 0, -1]) 3).length = min 3 2 :=
  get_relevant_documents_length _ [1, 2] (QueryOutcome.ok [1, -1, 0, -1]) 3
    [["a"], ["b"]] rfl rfl rfl (by decide)
    (Or.inr (Or.inr ⟨[1, -1, 0, -1], rfl, by decide⟩))

/-! ### Helpers for the trivial guard paths -/

theorem get_eq_nil_of_not_initialized {s : RAGState}
    (h : s.is_initialized = false) (scores : List ℚ) (qo : QueryOutcome)
    (top_n : Nat) : get_relevant_documents s scores qo top_n = [] := by
  simp [get_relevant_documents, h]

theorem update_index_empty {s : RAGState} (h : s.documents = [])
    (o : IndexOutcome) : (update_index s o).is_initialized = false := by
  simp [update_index, h]

/-- C6: whenever the retriever is not initialized — in particular after
`update_index` over an empty corpus — `get_relevant_documents` returns the
empty sequence for every query and every `top_n`, without error. -/
theorem uninitialized_returns_empty :
    (∀ (s : RAGState) (scores : List ℚ) (qo : QueryOutcome) (top_n : Nat),
      s.is_initialized = false →
      get_relevant_documents s scores qo top_n = []) ∧
    (∀ (s : RAGState) (o : IndexOutcome), s.documents = [] →
      (update_index s o).is_initialized = false) :=
  ⟨fun _ scores qo top_n h => get_eq_nil_of_not_initialized h scores qo top_n,
   fun _ o h => update_index_empty h o⟩

theorem uninitialized_returns_empty_witness :
    get_relevant_documents initRAGState [] QueryOutcome.encodeFail 5 = [] ∧
    (update_index initRAGState IndexOutcome.success).is_initialized = false :=
  ⟨uninitialized_returns_empty.1 initRAGState [] QueryOutcome.encodeFail 5 rfl,
   uninitialized_returns_empty.2 initRAGState IndexOutcome.success rfl⟩

/-- C7: `get_relevant_documents` never propagates an exception: every
modelled failure of the `try` body (`Except.error`) is caught and turns into
the empty result, an uninitialized retriever short-circuits to the empty
result, and otherwise the successful body value is returned — the call
always produces a plain list. -/
theorem get_relevant_documents_never_raises (s : RAGState) (scores : List ℚ)
    (qo : QueryOutcome) (top_n : Nat) :
    (∀ e, getRelevantDocsBody s scores qo top_n = Except.error e →
      get_relevant_documents s scores qo top_n = []) ∧
    (s.is_initialized = false →
      get_relevant_documents s scores qo top_n = []) ∧
    (∃ l, get_relevant_documents s scores qo top_n = l ∧
      (getRelevantDocsBody s scores qo top_n = Except.ok l ∨ l = [])) := by
  refine ⟨?_, ?_, ?_⟩
  · intro e he
    by_cases hinit : s.is_initialized <;>
      simp [get_relevant_documents, hinit, he]
  · intro h
    exact get_eq_nil_of_not_initialized h scores qo top_n
  · by_cases hinit : s.is_initialized
    · cases hb : getRelevantDocsBody s scores qo top_n with
      | ok l =>
        refine ⟨l, ?_, Or.inl rfl⟩
        simp [get_relevant_documents, hinit, hb]
      | error e =>
        exact ⟨[], by simp [get_relevant_documents, hinit, hb], Or.inr rfl⟩
    · exact ⟨[], by simp [get_relevant_documents, hinit], Or.inr rfl⟩

theorem get_relevant_documents_never_raises_witness :
    get_relevant_documents
      { documents := [], corpus := [], bm25 := none, faissIndex := none,
        embeddings := none, modelLoaded := false, is_initialized := true }
      [] (QueryOutcome.ok []) 2 = [] :=
  (get_relevant_documents_never_raises _ [] (QueryOutcome.ok []) 2).1 () rfl

/-- C9: `add_documents` called with an empty list of new segments returns
before touching anything: the whole retriever state — documents, corpus,
BM25 index, FAISS index, embeddings and the `is_initialized` flag — is
exactly the prior state. -/
theorem add_documents_empty_noop (s : RAGState) (o : IndexOutcome) :
    add_documents s [] o = s ∧
    (add_documents s [] o).documents = s.documents ∧
    (add_documents s [] o).corpus = s.corpus ∧
    (add_documents s [] o).bm25 = s.bm25 ∧
    (add_documents s [] o).faissIndex = s.faissIndex ∧
    (add_documents s [] o).embeddings = s.embeddings ∧
    (add_documents s [] o).is_initialized = s.is_initialized :=
  ⟨rfl, rfl, rfl, rfl, rfl, rfl, rfl⟩

/-- C2 (what the code actually does): rebuilding the index over a non-empty
corpus when the embedding-model load fails leaves the BM25 index freshly
built but sets `is_initialized` to `False` — the exception re-raised by
`load_embedding_model` escapes `create_embeddings` (whose `try` starts only
after that call) and lands in the `except` of `update_index`.  Every
subsequent `get_relevant_documents` call then returns `[]`: the retriever
becomes unusable instead of degrading to lexical-only search. -/
theorem load_failure_disables_retriever :
    (update_index { initRAGState with documents := ["alpha"] }
        IndexOutcome.loadError).bm25 = some [["alpha"]] ∧
    (update_index { initRAGState with documents := ["alpha"] }
        IndexOutcome.loadError).is_initialized = false ∧
    ∀ (scores : List ℚ) (qo : QueryOutcome) (top_n : Nat),
      get_relevant_documents
        (update_index { initRAGState with documents := ["alpha"] }
          IndexOutcome.loadError) scores qo top_n = [] := by
  refine ⟨by decide, rfl, ?_⟩
  intro scores qo top_n
  exact get_eq_nil_of_not_initialized rfl scores qo top_n

/-- C5: the fusion step of `get_relevant_documents`.  With `L1` the truncated
lexical index list (as dict keys) and `idxs` the FAISS result row: each
position appearing in a truncated ranked list contributes `1/(rank+60)` per
list (`rank` its 0-based position in that list), a position in both lists
gets the sum of the two contributions, the `-1` sentinel contributes
nothing, and the call returns `finalize` — the fused pairs stably sorted by
accumulated score descending, truncated to `top_n` (then mapped to texts). -/
theorem rrf_fusion_formula (s : RAGState) (scores : List ℚ) (top_n : Nat)
    (tok : List (List String)) (m : Nat) (idxs : List Int)
    (hinit : s.is_initialized = true) (hbm : s.bm25 = some tok)
    (hfaiss : s.faissIndex = some m)
    (hnd2 : (idxs.filter (fun y => y ≠ -1)).Nodup) :
    (∀ d : Int, d ≠ -1 →
      scoreOf (fuseFAISS 0 (fuseRanked 0 []
          ((bm25TopIndices scores top_n).map Int.ofNat)) idxs) d =
        (if d ∈ (bm25TopIndices scores top_n).map Int.ofNat then
          rrfScore (((bm25TopIndices scores top_n).map Int.ofNat).findIdx
            (fun y => y = d))
         else 0) +
        (if d ∈ idxs then rrfScore (idxs.findIdx (fun y => y = d))
         else 0)) ∧
    scoreOf (fuseFAISS 0 (fuseRanked 0 []
        ((bm25TopIndices scores top_n).map Int.ofNat)) idxs) (-1) = 0 ∧
    get_relevant_documents s scores (QueryOutcome.ok idxs) top_n =
      finalize s.documents
        (fuseFAISS 0 (fuseRanked 0 []
          ((bm25TopIndices scores top_n).map Int.ofNat)) idxs) top_n ∧
    ((sortDesc (fuseFAISS 0 (fuseRanked 0 []
        ((bm25TopIndices scores top_n).map Int.ofNat)) idxs)).map
      Prod.snd).Sorted (fun a b : ℚ => b ≤ a) ∧
    List.Perm
      (sortDesc (fuseFAISS 0 (fuseRanked 0 []
        ((bm25TopIndices scores top_n).map Int.ofNat)) idxs))
      (fuseFAISS 0 (fuseRanked 0 []
        ((bm25TopIndices scores top_n).map Int.ofNat)) idxs) := by
  set L1 : List Int := (bm25TopIndices scores top_n).map Int.ofNat with hL1
  have hndL1 : L1.Nodup :=
    (bm25TopIndices_nodup scores top_n).map (fun a b h => Int.ofNat.inj h)
  have hkeys0 : keysOf (fuseRanked 0 [] L1) = L1 :=
    keysOf_fuseRanked_nil L1 hndL1
  have hnd0 : (keysOf (fuseRanked 0 [] L1)).Nodup := by
    rw [hkeys0]; exact hndL1
  refine ⟨?_, ?_, ?_, ?_, sortDesc_perm _⟩
  · intro d hd
    rw [scoreOf_fuseFAISS 0 _ hnd2 hnd0 d hd,
      scoreOf_fuseRanked 0 [] hndL1 (by simp [keysOf]) d, scoreOf_nil]
    simp only [Nat.zero_add, zero_add]
  · have hnotmem : (-1 : Int) ∉ keysOf (fuseFAISS 0 (fuseRanked 0 [] L1)
        idxs) := by
      intro hmem
      rcases keysOf_fuseFAISS_subset 0 _ (-1) hmem with hm | hm
      · rw [hkeys0, hL1] at hm
        rcases List.mem_map.mp hm with ⟨j, _, hj⟩
        cases hj
      · exact hm.2 rfl
    exact scoreOf_eq_zero_of_not_mem hnotmem
  · rw [get_relevant_documents, if_pos (by rw [hinit]),
      getRelevantDocsBody, hbm, hfaiss]
  · have hsorted := sortDesc_sorted (fuseFAISS 0 (fuseRanked 0 [] L1) idxs)
    rw [List.Sorted, List.pairwise_map]
    exact hsorted

theorem rrf_fusion_formula_witness :
    scoreOf (fuseFAISS 0 (fuseRanked 0 []
        ((bm25TopIndices [(1 : ℚ), 2] 1).map Int.ofNat)) [0, -1]) 0 =
      rrfScore 1 + rrfScore 0 ∧
    scoreOf (fuseFAISS 0 (fuseRanked 0 []
        ((bm25TopIndices [(1 : ℚ), 2] 1).map Int.ofNat)) [0, -1]) (-1) = 0 := by
  have h := rrf_fusion_formula
    { documents := ["a", "b"], corpus := ["a", "b"],
      bm25 := some [["a"], ["b"]], faissIndex := some 2,
      embeddings := some 2, modelLoaded := true, is_initialized := true }
    [1, 2] 1 [["a"], ["b"]] 2 [0, -1] rfl rfl rfl (by decide)
  refine ⟨?_, h.2.1⟩
  have h0 := h.1 0 (by decide)
  have hbm : bm25TopIndices [(1 : ℚ), 2] 1 = [1, 0] := by decide
  rw [h0, hbm]
  norm_num [List.findIdx_cons]

/-- C10: `add_documents` with non-empty segments on the fresh uninitialized
retriever transitions it to initialized: the segments become the corpus,
both indices are rebuilt over exactly them, `is_initialized` becomes true,
and the immediately following `get_relevant_documents` call (executing
without exception, FAISS indices in range) returns `min top_n N` non-empty
results all drawn from the new segments. -/
theorem add_documents_initializes (segs : List String) (hne : segs ≠ [])
    (scores : List ℚ) (qo : QueryOutcome) (top_n : Nat)
    (hlen : scores.length = segs.length) (htop : 1 ≤ top_n)
    (hsem : qo = QueryOutcome.encodeFail ∨
      ∃ idxs, qo = QueryOutcome.ok idxs ∧
        ∀ x ∈ idxs, x = -1 ∨ (0 ≤ x ∧ x < (segs.length : Int))) :
    (add_documents initRAGState segs IndexOutcome.success).documents =
      segs ∧
    (add_documents initRAGState segs IndexOutcome.success).corpus =
      segs.map preprocess_text ∧
    (add_documents initRAGState segs IndexOutcome.success).bm25 =
      some ((segs.map preprocess_text).map tokenize) ∧
    (add_documents initRAGState segs IndexOutcome.success).faissIndex =
      some segs.length ∧
    (add_documents initRAGState segs IndexOutcome.success).is_initialized =
      true ∧
    (get_relevant_documents (add_documents initRAGState segs
        IndexOutcome.success) scores qo top_n).length =
      min top_n segs.length ∧
    get_relevant_documents (add_documents initRAGState segs
        IndexOutcome.success) scores qo top_n ≠ [] ∧
    ∀ d ∈ get_relevant_documents (add_documents initRAGState segs
        IndexOutcome.success) scores qo top_n, d ∈ segs := by
  have hempty : segs.isEmpty = false := by
    cases segs with
    | nil => exact absurd rfl hne
    | cons a l => rfl
  have hs1 : add_documents initRAGState segs IndexOutcome.success =
      { documents := segs, corpus := segs.map preprocess_text,
        bm25 := some ((segs.map preprocess_text).map tokenize),
        faissIndex := some segs.length, embeddings := some segs.length,
        modelLoaded := true, is_initialized := true } := by
    simp [add_documents, update_index, initRAGState, hempty]
  have hshape := get_relevant_documents_shape
    (add_documents initRAGState segs IndexOutcome.success) scores qo top_n
    ((segs.map preprocess_text).map tokenize)
    (by rw [hs1]) (by rw [hs1]) (by rw [hs1]; exact hlen)
    (by rw [hs1]; exact Or.inr hsem)
  have hlen1 : (get_relevant_documents (add_documents initRAGState segs
      IndexOutcome.success) scores qo top_n).length =
      min top_n segs.length := by
    rw [hshape.1, hs1]
  refine ⟨by rw [hs1], by rw [hs1], by rw [hs1], by rw [hs1], by rw [hs1],
    hlen1, ?_, ?_⟩
  · intro hnil
    rw [hnil] at hlen1
    have hpos : 0 < segs.length := List.length_pos.mpr hne
    simp at hlen1
    omega
  · intro d hd
    have h2 := hshape.2 d hd
    rwa [hs1] at h2

theorem add_documents_initializes_witness :
    (add_documents initRAGState ["hello"] IndexOutcome.success).documents =
      ["hello"] ∧
    (add_documents initRAGState ["hello"]
      IndexOutcome.success).is_initialized = true ∧
    (get_relevant_documents (add_documents initRAGState ["hello"]
        IndexOutcome.success) [1] QueryOutcome.encodeFail 1).length =
      min 1 1 ∧
    get_relevant_documents (add_documents initRAGState ["hello"]
        IndexOutcome.success) [1] QueryOutcome.encodeFail 1 ≠ [] := by
  have h := add_documents_initializes ["hello"] (by decide) [1]
    QueryOutcome.encodeFail 1 rfl (by decide) (Or.inl rfl)
  exact ⟨h.1, h.2.2.2.2.1, h.2.2.2.2.2.1, h.2.2.2.2.2.2.1⟩

end RAG
